import Mathlib

/-!
Verification of germinate's seed, archive, logging and driver components.

Each Python construct from the repository is shallowly embedded as a Lean
definition; stateful loops become explicit recursion or folds, files
become association lists or functions from names to optional contents,
and exceptions become Except / Option results.  Theorems about the
embeddings follow all the definitions.
-/

set_option maxRecDepth 8192

namespace Germinate

/-! ## Association-list helpers

Python dicts are modelled as association lists keyed by strings.
`setA` replaces the value of an existing key in place (keeping its
position, as a dict assignment does) or appends a new binding;
`updateA` folds `setA` over another dict, i.e. `dict.update`. -/

def lookupA {α : Type} : List (String × α) → String → Option α
  | [], _ => none
  | (k, v) :: rest, key => if k = key then some v else lookupA rest key

def setA {α : Type} : List (String × α) → String → α → List (String × α)
  | [], key, v => [(key, v)]
  | (k, w) :: rest, key, v =>
    if k = key then (key, v) :: rest else (k, w) :: setA rest key v

def updateA {α : Type} (base upd : List (String × α)) : List (String × α) :=
  upd.foldl (fun acc kv => setA acc kv.1 kv.2) base

/-- Append each element of `xs` to `l` unless it is already present: the
`for x in xs: if x not in l: l.append(x)` pattern. -/
def appendNew (l xs : List String) : List String :=
  xs.foldl (fun acc x => if x ∈ acc then acc else acc ++ [x]) l

/-- Add `x` to a set modelled as a list: `set.add(x)`. -/
def insertNew (l : List String) (x : String) : List String :=
  if x ∈ l then l else l ++ [x]

/-! String primitives used by the embedding, written over the underlying
character list so that concrete instances evaluate by kernel reduction.
They agree with `str.startswith`, `str.endswith`, `in`, and slicing. -/

def strStartsWith (s pre : String) : Bool := pre.data.isPrefixOf s.data

def strEndsWith (s suf : String) : Bool := suf.data.reverse.isPrefixOf s.data.reverse

def strContains (s : String) (c : Char) : Bool := s.data.contains c

/-- `w[:-n]` for `n ≤ len(w)`. -/
def strDropRight (s : String) (n : Nat) : String :=
  String.mk (s.data.take (s.data.length - n))

/-! ## log.py: GerminateFormatter (C7)

`logging` level constants are the Python standard library's numeric
values.  A log record is modelled by the fields the formatter reads:
`progress` is `none` when the attribute is absent (reading it raises
AttributeError, which the formatter swallows), otherwise its truth
value. -/

def DEBUG : Nat := 10

def INFO : Nat := 20

def WARNING : Nat := 30

def ERROR : Nat := 40

structure LogRecord where
  progress : Option Bool
  levelno : Nat
  message : String

/-- The `self.levels` dict built in `GerminateFormatter.__init__`. -/
def formatterLevels : List (Nat × String) :=
  [(DEBUG, "  "), (INFO, "* "), (WARNING, "! "), (ERROR, "? ")]

def lookupLevel : List (Nat × String) → Nat → Option String
  | [], _ => none
  | (k, v) :: rest, key => if k = key then some v else lookupLevel rest key

/-- `GerminateFormatter.format`: a truthy `progress` attribute yields the
bare message; otherwise the message is prefixed with the marker for its
level, and a level outside the dict (KeyError) yields the bare message. -/
def formatRecord (r : LogRecord) : String :=
  if r.progress = some true then r.message
  else
    match lookupLevel formatterLevels r.levelno with
    | some p => p ++ r.message
    | none => r.message

/-! ## seeds.py: Seed comparison operators (C9) -/

/-- The attributes of a `Seed` object: `_name`, `_base`, `_branch`,
`_text` (`base`/`branch` are `None` for a `CustomSeed`). -/
structure SeedObj where
  name : String
  base : Option String
  branch : Option String
  text : String

def seedLt (a b : SeedObj) : Bool := decide (a.text < b.text)

def seedLe (a b : SeedObj) : Bool := decide (a.text ≤ b.text)

def seedEqOp (a b : SeedObj) : Bool := a.text == b.text

def seedNe (a b : SeedObj) : Bool := a.text != b.text

def seedGe (a b : SeedObj) : Bool := decide (b.text ≤ a.text)

def seedGt (a b : SeedObj) : Bool := decide (b.text < a.text)

/-! ## seeds.py: AtomicFile (C8)

The filesystem is a function from filenames to optional contents.
`AtomicFile.__init__` opens `filename.new` for writing (creating or
truncating it); the body writes text to that descriptor; `__exit__`
closes it and, only when no exception was raised, renames
`filename.new` over `filename`.  The body is modelled by the final text
it wrote plus whether it raised. -/

def Fs : Type := String → Option String

def fsSet (fs : Fs) (k : String) (v : Option String) : Fs :=
  fun n => if n = k then v else fs n

/-- Run `with AtomicFile(filename) as f:` around a body that writes
`written` and then either raises (`raises = true`) or returns. -/
def withAtomicFile (fs : Fs) (filename written : String) (raises : Bool) : Fs :=
  let tmp := filename ++ ".new"
  let fsAfterBody := fsSet fs tmp (some written)
  if raises then
    fsAfterBody
  else
    fsSet (fsSet fsAfterBody filename (some written)) tmp none

/-! ## archive.py: TagFile (C3, C4)

Opening one tag file for a given mirror and compression suffix is an
abstract partial operation `tryOpen mirror suffix`; it returns the
parsed sequence of stanzas of that file on success and `none` when any
step of `_open_tag_file` raises IOError or OSError. -/

inductive IndexType where
  | packages
  | sources
  | installerPackages
deriving DecidableEq, Repr

/-- The suffix order tried by `TagFile._open_tag_files`. -/
def suffixOrder : List String := [".xz", ".bz2", ".gz", ""]

/-- The inner `for suffix in (".xz", ".bz2", ".gz", "")` loop for one
mirror: try each suffix in turn, stop at the first success.  Also
returns the trace of suffixes that were attempted, in order. -/
def tryOpenLoop {α : Type} (f : String → Option α) : List String → List String × Option α
  | [] => ([], none)
  | s :: rest =>
    match f s with
    | some file => ([s], some file)
    | none =>
      let r := tryOpenLoop f rest
      (s :: r.1, r.2)

def tryTagFileSuffixes {α : Type} (f : String → Option α) : List String × Option α :=
  tryOpenLoop f suffixOrder

/-- `TagFile._open_tag_files`: for each mirror try the suffixes in order,
collect the successfully opened files; raise IOError when none opened.
The first component records, per mirror, the attempted suffixes. -/
def openTagFiles {α : Type} (tryOpen : String → String → Option α) (mirrors : List String) :
    List (String × List String × Option α) × Except String (List α) :=
  let per := mirrors.map fun m => (m, tryTagFileSuffixes (tryOpen m))
  let files := per.filterMap fun x => x.2.2
  (per, if files.isEmpty then Except.error "IOError" else Except.ok files)

/-- The configuration of a `TagFile` plus the abstract archive contents:
`tryOpen dist component kind mirror suffix` is the tag file opened by
`_open_tag_file`, as its list of stanzas, or `none` when opening fails. -/
structure TagFileCfg (σ : Type) where
  dists : List String
  components : List String
  installerPackages : Bool
  mirrors : List String
  sourceMirrors : List String
  tryOpen : String → String → IndexType → String → String → Option (List σ)

/-- Tag every stanza of every opened file with its index type, in file
order: the `for tag_file in files: for section in tag_file: yield` loops. -/
def tagSections {σ : Type} (k : IndexType) (files : List (List σ)) : List (IndexType × σ) :=
  files.flatten.map fun s => (k, s)

def missingInstallerMsg (component : String) : String :=
  "Missing installer Packages file for " ++ component ++ " (ignoring)"

/-- `TagFile.sections` run over an explicit list of (dist, component)
pairs.  Result: the stanzas yielded before the generator finished or
raised, the progress messages logged for missing installer indexes, and
whether iteration was aborted by an uncaught IOError. -/
def runPairs {σ : Type} (cfg : TagFileCfg σ) :
    List (String × String) → List (IndexType × σ) × List String × Bool
  | [] => ([], [], false)
  | (dist, component) :: rest =>
    match (openTagFiles (cfg.tryOpen dist component IndexType.packages) cfg.mirrors).2 with
    | Except.error _ => ([], [], true)
    | Except.ok pfiles =>
      match (openTagFiles (cfg.tryOpen dist component IndexType.sources)
          cfg.sourceMirrors).2 with
      | Except.error _ => (tagSections IndexType.packages pfiles, [], true)
      | Except.ok sfiles =>
        let inst : List (IndexType × σ) × List String :=
          if cfg.installerPackages then
            match (openTagFiles (cfg.tryOpen dist component IndexType.installerPackages)
                cfg.mirrors).2 with
            | Except.error _ => ([], [missingInstallerMsg component])
            | Except.ok ifiles => (tagSections IndexType.installerPackages ifiles, [])
          else ([], [])
        let r := runPairs cfg rest
        (tagSections IndexType.packages pfiles ++ tagSections IndexType.sources sfiles ++
            inst.1 ++ r.1,
          inst.2 ++ r.2.1, r.2.2)

/-- The `for dist in self._dists: for component in self._components` nest. -/
def pairsOf {σ : Type} (cfg : TagFileCfg σ) : List (String × String) :=
  cfg.dists.flatMap fun d => cfg.components.map fun c => (d, c)

def sectionsRun {σ : Type} (cfg : TagFileCfg σ) :
    List (IndexType × σ) × List String × Bool :=
  runPairs cfg (pairsOf cfg)

/-! ## seeds.py: SingleSeedStructure (C5)

A STRUCTURE file is modelled line by line, each line given by its list
of whitespace-separated words (`line.split()`); an empty list is a
blank line.  `str.strip` followed by `startswith("#")` is equivalent to
the first word starting with `#`. -/

structure SingleStruct where
  seedOrder : List String
  inherit : List (String × List String)
  branches : List String
  lines : List (List String)
  features : List String
deriving Repr, DecidableEq

def emptySingle (branch : String) : SingleStruct :=
  { seedOrder := [], inherit := [], branches := [branch], lines := [], features := [] }

def slashMsg (seed : String) : String :=
  "seed name " ++ seed ++ " may not contain /"

/-- The body of `SingleSeedStructure.__init__`'s line loop. -/
def parseSingleLines (acc : SingleStruct) :
    List (List String) → Except String SingleStruct
  | [] => Except.ok acc
  | ws :: rest =>
    match ws with
    | [] => parseSingleLines acc rest
    | w :: args =>
      if strStartsWith w "#" then parseSingleLines acc rest
      else if strEndsWith w ":" then
        let seed := strDropRight w 1
        if strContains seed '/' then Except.error (slashMsg seed)
        else
          parseSingleLines
            { acc with
              seedOrder := acc.seedOrder ++ [seed]
              inherit := setA acc.inherit seed args
              lines := acc.lines ++ [ws] } rest
      else if w = "include" then
        parseSingleLines { acc with branches := acc.branches ++ args } rest
      else if w = "feature" then
        parseSingleLines { acc with features := appendNew acc.features args } rest
      else
        -- unparseable entry: logged and skipped
        parseSingleLines acc rest

def parseSingle (branch : String) (ls : List (List String)) : Except String SingleStruct :=
  parseSingleLines (emptySingle branch) ls

/-- A line that makes `SingleSeedStructure.__init__` raise SeedError: a
non-blank, non-comment line whose first word ends in a colon and whose
declared seed name (the word minus the colon) contains a slash. -/
def seedLineBad (ws : List String) : Bool :=
  match ws with
  | [] => false
  | w :: _ => !strStartsWith w "#" && strEndsWith w ":" && strContains (strDropRight w 1) '/'

/-! ## seeds.py: SeedStructure._parse (C1, C10)

The collection's structure files form a finite map from branch name to
STRUCTURE lines (each line as its word list); `make_seed(...,
"STRUCTURE", ...)` succeeds exactly on the keys of that map and raises
SeedError otherwise.  The mutable `got_branches` set (shared by
reference across the recursion) and the `self._features` set are
threaded as explicit state, together with the trace of branches
fetched, in fetch order. -/

def Files : Type := List (String × List (List String))

/-- The four accumulators of `_parse`: `all_seed_order`, `all_inherit`,
`all_branches`, `all_structure`. -/
structure ParseOut where
  seedOrder : List String
  inherit : List (String × List String)
  branches : List String
  lines : List (List String)
deriving Repr, DecidableEq

structure PState where
  got : List String
  trace : List String
  feats : List String
deriving Repr, DecidableEq

def initPState : PState := { got := [], trace := [], feats := [] }

def emptyOut : ParseOut := { seedOrder := [], inherit := [], branches := [], lines := [] }

/-- `line.split()[0][:-1]`, the seed name of a structure line. -/
def lineName (ws : List String) : String := strDropRight (ws.headD "") 1

def removeFirstByName : List (List String) → String → List (List String)
  | [], _ => []
  | x :: xs, n => if lineName x = n then xs else x :: removeFirstByName xs n

/-- Delete any previous line for the same seed name (first match only),
then append: the `for i in range(len(all_structure)): ... del ...;
break` loop followed by `append`. -/
def overrideLine (acc : List (List String)) (l : List String) : List (List String) :=
  removeFirstByName acc (lineName l) ++ [l]

/-- Merge one branch's data into the four accumulators.  `_parse` runs
this once per included branch's result and once for the current
branch's own structure: extend the seed order, update the inherit dict,
append unseen branches, override structure lines by seed name. -/
def mergeOut (acc res : ParseOut) : ParseOut :=
  { seedOrder := acc.seedOrder ++ res.seedOrder
    inherit := updateA acc.inherit res.inherit
    branches := appendNew acc.branches res.branches
    lines := res.lines.foldl overrideLine acc.lines }

/-- The `for child_branch in structure.branches` loop of `_parse`:
branches already in `got_branches` are skipped, others are parsed
recursively (via `rec`) and their results merged. -/
def parseChildren (rec : String → PState → Option (Except String (ParseOut × PState))) :
    List String → ParseOut → PState → Option (Except String (ParseOut × PState))
  | [], acc, st => some (Except.ok (acc, st))
  | c :: cs, acc, st =>
    if c ∈ st.got then parseChildren rec cs acc st
    else
      match rec c st with
      | none => none
      | some (Except.error e) => some (Except.error e)
      | some (Except.ok (res, st2)) => parseChildren rec cs (mergeOut acc res) st2

/-- `SeedStructure._parse`, with a fuel parameter standing in for the
unbounded recursion of the source (the termination theorem shows
`parseFuel` is always enough fuel).  Fetch the branch's STRUCTURE, add
the branch to `got_branches`, recurse into included branches, attach the
main branch's data, reverse the branch list, and union the features. -/
def parseRec (files : Files) : Nat → String → PState → Option (Except String (ParseOut × PState))
  | 0, _, _ => none
  | fuel + 1, branch, st =>
    match lookupA files branch with
    | none => some (Except.error ("Could not open STRUCTURE in " ++ branch))
    | some ls =>
      match parseSingle branch ls with
      | Except.error e => some (Except.error e)
      | Except.ok s =>
        let st1 : PState :=
          { st with trace := st.trace ++ [branch], got := insertNew st.got branch }
        match parseChildren (fun c st2 => parseRec files fuel c st2) s.branches
            emptyOut st1 with
        | none => none
        | some (Except.error e) => some (Except.error e)
        | some (Except.ok (acc, st2)) =>
          let out := mergeOut acc
            { seedOrder := s.seedOrder, inherit := s.inherit,
              branches := s.branches, lines := s.lines }
          let st3 : PState := { st2 with feats := appendNew st2.feats s.features }
          some (Except.ok ({ out with branches := out.branches.reverse }, st3))

def numKeys (files : Files) : Nat := (files.map Prod.fst).dedup.length

def parseFuel (files : Files) : Nat := numKeys files + 1

/-- The number of structure-file keys not yet in `got_branches`: the
termination measure of `_parse`. -/
def freeKeys (files : Files) (got : List String) : Nat :=
  ((files.map Prod.fst).dedup.filter fun k => !decide (k ∈ got)).length

/-- The branch list of one branch's own STRUCTURE file (the branch
itself followed by its include arguments), empty when the file is
missing or unparseable. -/
def singleBranchesOf (files : Files) (f : String) : List String :=
  match lookupA files f with
  | none => []
  | some ls =>
    match parseSingle f ls with
    | Except.error _ => []
    | Except.ok s => s.branches

/-! ## seeds.py: Seed acquisition and SeedStructure.__init__ (C1)

`sf base branch name` is the text behind one seed location, `none` when
opening it fails (which `Seed.__init__` catches and skips). -/

def SeedFiles : Type := String → String → String → Option String

/-- The `for base in bases: for branch in branches:` search of
`Seed.__init__`; the first location that opens wins. -/
def openSeedText (sf : SeedFiles) (bases branches : List String) (name : String) :
    Option String :=
  bases.findSome? fun b => branches.findSome? fun br => sf b br name

/-- The `for seed in self._seed_order: self._seeds[seed] = make_seed(...)`
loop of `SeedStructure.__init__`; a seed that cannot be opened anywhere
raises SeedError. -/
def fetchSeedsGo (sf : SeedFiles) (bases branches : List String)
    (acc : List (String × String)) : List String → Except String (List (String × String))
  | [] => Except.ok acc
  | n :: rest =>
    match openSeedText sf bases branches n with
    | none => Except.error ("Could not open " ++ n)
    | some t => fetchSeedsGo sf bases branches (setA acc n t) rest

/-- `SeedStructure.__init__` up to seed acquisition: `_parse` the branch
recursively, then read every seed named in the accumulated seed order
from the accumulated (reversed) branch list.  `_expand_inheritance`,
which runs afterwards, does not touch `_seeds`. -/
def buildSeeds (files : Files) (sf : SeedFiles) (bases : List String) (branch : String) :
    Except String (ParseOut × List (String × String)) :=
  match parseRec files (parseFuel files) branch initPState with
  | none => Except.error "out of fuel"
  | some (Except.error e) => Except.error e
  | some (Except.ok (out, _)) =>
    match fetchSeedsGo sf bases out.branches [] out.seedOrder with
    | Except.error e => Except.error e
    | Except.ok seeds => Except.ok (out, seeds)

/-! ## seeds.py: SeedStructure._expand_inheritance (C2)

`topo_sort` lives in germinate/tsort.py, which is not among the
provided sources; the theorems therefore take the sorted name list as a
parameter constrained by the spec's contract for it (every name, each
after all its predecessors, no duplicates). -/

/-- `(lookupA inh n).getD []`.  In the source a missing key raises
KeyError; the theorems only use this where the key is present. -/
def lookupD (inh : List (String × List String)) (n : String) : List String :=
  (lookupA inh n).getD []

/-- The inner loops of `_expand_inheritance` building `new_inherit` for
one seed: for each declared parent in order, append the parent's
already-expanded list skipping names already seen, then the parent
itself if not seen.  In the source the `seen` set always holds exactly
the elements of `new_inherit`, so the accumulator doubles as the seen
set. -/
def mergeParents (lookupExp : String → List String) (parents : List String) :
    List String :=
  parents.foldl (fun acc p => insertNew (appendNew acc (lookupExp p)) p) []

/-- One iteration of `for name in self._names`: replace `name`'s parent
list, reading the current (partially rewritten) dict. -/
def expandStep (cur : List (String × List String)) (name : String) :
    List (String × List String) :=
  setA cur name (mergeParents (lookupD cur) (lookupD cur name))

/-- `_expand_inheritance` given the topologically sorted name list. -/
def expandInheritance (order : List String) (inh : List (String × List String)) :
    List (String × List String) :=
  order.foldl expandStep inh

/-- `x` is a proper ancestor of `n` through declared parent lists: the
transitive closure the spec's override law speaks about. -/
inductive Anc (inh : List (String × List String)) : String → String → Prop
  | parent {n p : String} : p ∈ lookupD inh n → Anc inh n p
  | step {n p q : String} : p ∈ lookupD inh n → Anc inh p q → Anc inh n q

/-- Decidable check that every name's declared parents occur earlier in
the order (`seen` accumulates the processed prefix). -/
def checkPred (inh : List (String × List String)) : List String → List String → Bool
  | _, [] => true
  | seen, n :: rest =>
    (lookupD inh n).all (fun p => decide (p ∈ seen)) &&
      checkPred inh (seen ++ [n]) rest

/-- A three-seed chain for exercising inheritance expansion. -/
def inhDemo : List (String × List String) :=
  [("base", []), ("desktop", ["base"]), ("ship", ["desktop"])]

def orderDemo : List String := ["base", "desktop", "ship"]

/-! ## scripts/germinate_main.py: exit codes (C6)

The driver's control flow over abstract outcomes of its fallible steps,
in statement order: option parsing, `parse_archive` over the `TagFile`,
`SeedStructure` construction (whose SeedError is caught and turned into
`sys.exit(1)`), and the blacklist seed (whose SeedError is caught and
ignored); on success the outputs are written and `main` returns 0. -/

inductive PyExc where
  | systemExit (code : Nat)
  | ioError
  | seedError
deriving DecidableEq, Repr

structure MainEnv where
  optionsValid : Bool
  archiveOk : Bool
  structureOk : Bool
  blacklistOk : Bool
deriving Repr

/-- `germinate_main.main` over an abstract environment.  Modelled from
the spec: an invalid option makes optparse's `parser.error` exit with
status 2 (optparse is outside the provided sources). -/
def mainRun (env : MainEnv) : Except PyExc Nat :=
  if !env.optionsValid then Except.error (PyExc.systemExit 2)
  else if !env.archiveOk then Except.error PyExc.ioError
  else if !env.structureOk then Except.error (PyExc.systemExit 1)
  else Except.ok 0

/-- Modelled from the spec: the Python process exit status for a driver
run - `sys.exit(n)` exits with `n`, a normal return with the returned
status, and an uncaught exception with status 1 (interpreter behavior,
outside the provided sources). -/
def processExit : Except PyExc Nat → Nat
  | Except.ok n => n
  | Except.error (PyExc.systemExit n) => n
  | Except.error _ => 1

def germinateMainExit (env : MainEnv) : Nat := processExit (mainRun env)

/-- Invariant of the threaded parse state: the fetch trace has no
duplicates and every fetched branch is in `got_branches`. -/
def TraceInv (st : PState) : Prop :=
  st.trace.Nodup ∧ ∀ x ∈ st.trace, x ∈ st.got

/-- The properties of one recursive `_parse` call used when reasoning
about the loop over included branches: on success the `got_branches` set
only grows, the trace is extended, additions to `got_branches` are
fetched branches, the parsed branch lands in its own result branches,
and (given the state invariant and a not-yet-fetched branch) the
invariant is preserved, fetched branches have structure files and were
new, every result branch is mentioned by some newly fetched structure
file, and every newly fetched branch is in the result branches. -/
def RecSpec (files : Files)
    (rec : String → PState → Option (Except String (ParseOut × PState))) : Prop :=
  ∀ b st out st', rec b st = some (Except.ok (out, st')) →
    (∀ x ∈ st.got, x ∈ st'.got) ∧
    (∃ tnew, st'.trace = st.trace ++ tnew) ∧
    (∀ x ∈ st'.got, x ∈ st.got ∨ x ∈ st'.trace) ∧
    b ∈ st'.got ∧
    b ∈ out.branches ∧
    (TraceInv st → b ∉ st.got →
      TraceInv st' ∧
      (∀ x ∈ st'.trace, x ∈ st.trace ∨ ((lookupA files x).isSome ∧ x ∉ st.got)) ∧
      (∀ x ∈ out.branches, ∃ f, f ∈ st'.trace ∧ f ∉ st.trace ∧
        x ∈ singleBranchesOf files f) ∧
      (∀ x ∈ st'.trace, x ∉ st.trace → x ∈ out.branches))

/-- A cyclic pair of branches: `t` includes `s` and `s` includes `t`,
and both declare the seed `n`. -/
def cycFiles : Files :=
  [("t", [["include", "s"], ["n:"]]),
   ("s", [["include", "t"], ["n:"]])]

/-- Seed texts for the cyclic pair: `n` is defined in both branches with
different texts. -/
def cycSeeds : SeedFiles := fun _ br name =>
  if name = "n" then
    if br = "t" then some "n from t" else if br = "s" then some "n from s" else none
  else none

/-- An acyclic pair of branches, mirroring the repository's own
`test_later_branches_override_earlier_branches` fixture: `two` includes
`one`; `one` defines `base` and `desktop`, `two` redefines `desktop`. -/
def twoFiles : Files :=
  [("two", [["include", "one"], ["desktop:"]]),
   ("one", [["base:"], ["desktop:"]])]

def twoSeeds : SeedFiles := fun _ br name =>
  if br = "one" then
    if name = "base" then some "b1" else if name = "desktop" then some "d1" else none
  else if br = "two" then
    if name = "desktop" then some "d2" else none
  else none

/-- A concrete `TagFile` whose archive lacks the InstallerPackages index
but has Packages (as `.xz`) and Sources (as `.gz`). -/
def cfgNoInstaller : TagFileCfg Nat :=
  { dists := ["d"], components := ["c"], installerPackages := true,
    mirrors := ["m"], sourceMirrors := ["m"],
    tryOpen := fun _ _ k _ s =>
      match k with
      | IndexType.packages => if s = ".xz" then some [7] else none
      | IndexType.sources => if s = ".gz" then some [8] else none
      | IndexType.installerPackages => none }

end Germinate

namespace Germinate

/-! ## Theorems: helper lemmas -/

theorem lookupA_setA_same {α : Type} (l : List (String × α)) (k : String) (v : α) :
    lookupA (setA l k v) k = some v := by
  induction l with
  | nil => simp [setA, lookupA]
  | cons kv rest ih =>
    obtain ⟨k0, v0⟩ := kv
    by_cases h : k0 = k <;> simp [setA, lookupA, h, ih]

theorem lookupA_setA_other {α : Type} (l : List (String × α)) (k k0 : String) (v : α)
    (h : k0 ≠ k) : lookupA (setA l k v) k0 = lookupA l k0 := by
  induction l with
  | nil => simp [setA, lookupA, Ne.symm h]
  | cons kv rest ih =>
    obtain ⟨k1, v1⟩ := kv
    by_cases h1 : k1 = k
    · subst h1
      simp [setA, lookupA, Ne.symm h]
    · simp only [setA, if_neg h1, lookupA]
      by_cases h2 : k1 = k0 <;> simp [h2, ih]

theorem appendNew_cons (l : List String) (x : String) (rest : List String) :
    appendNew l (x :: rest) = appendNew (if x ∈ l then l else l ++ [x]) rest := by
  by_cases h : x ∈ l <;> simp [appendNew, h]

theorem mem_appendNew (l xs : List String) (y : String) :
    y ∈ appendNew l xs ↔ y ∈ l ∨ y ∈ xs := by
  induction xs generalizing l with
  | nil => simp [appendNew]
  | cons x rest ih =>
    rw [appendNew_cons]
    by_cases h : x ∈ l
    · rw [if_pos h, ih]
      constructor
      · rintro (hy | hy)
        · exact Or.inl hy
        · exact Or.inr (List.mem_cons_of_mem x hy)
      · rintro (hy | hy)
        · exact Or.inl hy
        · rcases List.mem_cons.mp hy with rfl | hy
          · exact Or.inl h
          · exact Or.inr hy
    · rw [if_neg h, ih]
      simp only [List.mem_append, List.mem_singleton, List.mem_cons]
      tauto

theorem lookupLevel_formatter (lvl : Nat) :
    lookupLevel formatterLevels lvl =
      if lvl = DEBUG then some "  "
      else if lvl = INFO then some "* "
      else if lvl = WARNING then some "! "
      else if lvl = ERROR then some "? "
      else none := by
  simp only [formatterLevels, lookupLevel, DEBUG, INFO, WARNING, ERROR]
  by_cases h1 : lvl = 10
  · simp [h1]
  · by_cases h2 : lvl = 20
    · simp [h1, h2]
    · by_cases h3 : lvl = 30
      · simp [h1, h2, h3]
      · by_cases h4 : lvl = 40
        · simp [h1, h2, h3, h4]
        · simp [h1, h2, h3, h4,
            show ¬((10 : Nat) = lvl) from fun h => h1 h.symm,
            show ¬((20 : Nat) = lvl) from fun h => h2 h.symm,
            show ¬((30 : Nat) = lvl) from fun h => h3 h.symm,
            show ¬((40 : Nat) = lvl) from fun h => h4 h.symm]

theorem map_fst_tagSections {σ : Type} (k : IndexType) (files : List (List σ)) :
    (tagSections k files).map Prod.fst = files.flatten.map fun _ => k := by
  simp only [tagSections, List.map_map]
  rfl

theorem mem_map_fst_tagSections {σ : Type} {x k : IndexType} {files : List (List σ)}
    (h : x ∈ (tagSections k files).map Prod.fst) : x = k := by
  rw [map_fst_tagSections] at h
  rcases List.mem_map.mp h with ⟨a, _, rfl⟩
  rfl

theorem parseSingleLines_error_iff (acc : SingleStruct) (ls : List (List String)) :
    (∃ e, parseSingleLines acc ls = Except.error e) ↔
      ∃ ws ∈ ls, seedLineBad ws = true := by
  induction ls generalizing acc with
  | nil => simp [parseSingleLines]
  | cons ws rest ih =>
    match ws with
    | [] => simp [parseSingleLines, seedLineBad, ih]
    | w :: args =>
      by_cases h1 : strStartsWith w "#" = true
      · simp [parseSingleLines, h1, seedLineBad, ih]
      · by_cases h2 : strEndsWith w ":" = true
        · by_cases h3 : strContains (strDropRight w 1) '/' = true
          · have hbad : seedLineBad (w :: args) = true := by
              simp only [seedLineBad, Bool.not_eq_true] at h1 ⊢
              simp [h1, h2, h3]
            simp only [parseSingleLines, if_neg h1, if_pos h2, if_pos h3]
            simp [hbad]
          · have hbad : seedLineBad (w :: args) = false := by
              simp [seedLineBad, h3]
            simp only [parseSingleLines, if_neg h1, if_pos h2, if_neg h3]
            simp [ih, hbad]
        · have hbad : seedLineBad (w :: args) = false := by
            simp [seedLineBad, h2]
          simp only [parseSingleLines, if_neg h1, if_neg h2]
          by_cases h4 : w = "include"
          · rw [if_pos h4]
            simp [ih, hbad]
          · rw [if_neg h4]
            by_cases h5 : w = "feature"
            · rw [if_pos h5]
              simp [ih, hbad]
            · rw [if_neg h5]
              simp [ih, hbad]

theorem filename_ne_tmp (filename : String) : filename ≠ filename ++ ".new" := by
  intro h
  have h2 : filename.length = (filename ++ ".new").length := by rw [← h]
  rw [String.length_append] at h2
  have h3 : (".new" : String).length = 4 := rfl
  omega

theorem mem_insertNew (l : List String) (b x : String) :
    x ∈ insertNew l b ↔ x ∈ l ∨ x = b := by
  by_cases h : b ∈ l
  · simp only [insertNew, if_pos h]
    constructor
    · exact Or.inl
    · rintro (hx | rfl)
      · exact hx
      · exact h
  · simp [insertNew, if_neg h]

theorem subset_insertNew (l : List String) (b : String) : ∀ x ∈ l, x ∈ insertNew l b :=
  fun x hx => (mem_insertNew l b x).mpr (Or.inl hx)

theorem self_mem_insertNew (l : List String) (b : String) : b ∈ insertNew l b :=
  (mem_insertNew l b b).mpr (Or.inr rfl)

theorem filter_length_mono {α : Type} (p q : α → Bool) (l : List α)
    (h : ∀ a, p a = true → q a = true) :
    (l.filter p).length ≤ (l.filter q).length := by
  induction l with
  | nil => simp
  | cons x xs ih =>
    by_cases hp : p x = true
    · simp [List.filter_cons, hp, h x hp]
      omega
    · have hp' : p x = false := by revert hp; cases p x <;> simp
      by_cases hq : q x = true
      · simp [List.filter_cons, hp', hq]
        omega
      · have hq' : q x = false := by revert hq; cases q x <;> simp
        simp [List.filter_cons, hp', hq']
        exact ih

theorem length_filter_insert_lt (l got : List String) (b : String) (hnd : l.Nodup)
    (hb : b ∈ l) (hbg : b ∉ got) :
    (l.filter fun k => !decide (k ∈ insertNew got b)).length <
      (l.filter fun k => !decide (k ∈ got)).length := by
  induction l with
  | nil => cases hb
  | cons x xs ih =>
    rw [List.nodup_cons] at hnd
    rcases List.mem_cons.mp hb with rfl | hbxs
    · have h1 : (!decide (b ∈ insertNew got b)) = false := by
        simp [self_mem_insertNew]
      have h2 : (!decide (b ∈ got)) = true := by simp [hbg]
      simp only [List.filter_cons, h1, h2, if_pos, if_neg, Bool.false_eq_true,
        if_false, if_true]
      have hmono : ((xs.filter fun k => !decide (k ∈ insertNew got b)).length ≤
          (xs.filter fun k => !decide (k ∈ got)).length) := by
        refine filter_length_mono _ _ _ fun a ha => ?_
        simp only [Bool.not_eq_true', decide_eq_false_iff_not] at ha ⊢
        intro hmem
        exact ha (subset_insertNew got b a hmem)
      simp only [List.length_cons]
      omega
    · have hxb : x ≠ b := fun h => hnd.1 (h ▸ hbxs)
      have heq : (!decide (x ∈ insertNew got b)) = (!decide (x ∈ got)) := by
        by_cases hx : x ∈ got
        · simp [hx, subset_insertNew got b x hx]
        · simp only [mem_insertNew]
          simp [hx, hxb]
      rw [List.filter_cons, List.filter_cons, heq]
      by_cases hx : (!decide (x ∈ got)) = true
      · simp only [hx, if_true, List.length_cons]
        have := ih hnd.2 hbxs
        omega
      · have hx' : (!decide (x ∈ got)) = false := by revert hx; cases (!decide (x ∈ got)) <;> simp
        simp only [hx', Bool.false_eq_true, if_false]
        exact ih hnd.2 hbxs

theorem freeKeys_mono (files : Files) (got got' : List String)
    (h : ∀ x ∈ got, x ∈ got') : freeKeys files got' ≤ freeKeys files got := by
  refine filter_length_mono _ _ _ fun a ha => ?_
  simp only [Bool.not_eq_true', decide_eq_false_iff_not] at ha ⊢
  intro hmem
  exact ha (h a hmem)

theorem freeKeys_insertNew_lt (files : Files) (got : List String) (b : String)
    (hb : b ∈ files.map Prod.fst) (hbg : b ∉ got) :
    freeKeys files (insertNew got b) < freeKeys files got :=
  length_filter_insert_lt _ got b (List.nodup_dedup _) (List.mem_dedup.mpr hb) hbg

theorem freeKeys_nil (files : Files) : freeKeys files [] = numKeys files := by
  simp [freeKeys, numKeys]

theorem lookupA_mem_keys {α : Type} (l : List (String × α)) (k : String) (v : α)
    (h : lookupA l k = some v) : k ∈ l.map Prod.fst := by
  induction l with
  | nil => simp [lookupA] at h
  | cons kv rest ih =>
    obtain ⟨k0, v0⟩ := kv
    by_cases hk : k0 = k
    · simp [hk]
    · simp only [lookupA, if_neg hk] at h
      simp [ih h]

theorem appendNew_all_mem (l xs : List String) (h : ∀ x ∈ xs, x ∈ l) :
    appendNew l xs = l := by
  induction xs with
  | nil => rfl
  | cons x rest ih =>
    rw [appendNew_cons, if_pos (h x (List.mem_cons_self x rest))]
    exact ih fun y hy => h y (List.mem_cons_of_mem x hy)

theorem appendNew_exactly_one (l xs : List String) (t : String)
    (hx : ∀ x ∈ xs, x = t ∨ x ∈ l) (ht : t ∉ l) (hmem : t ∈ xs) :
    appendNew l xs = l ++ [t] := by
  induction xs with
  | nil => cases hmem
  | cons x rest ih =>
    rw [appendNew_cons]
    by_cases hxl : x ∈ l
    · rw [if_pos hxl]
      have hxt : x ≠ t := fun h => ht (h ▸ hxl)
      have hmem' : t ∈ rest := by
        rcases List.mem_cons.mp hmem with h | h
        · exact absurd h.symm hxt
        · exact h
      exact ih (fun y hy => hx y (List.mem_cons_of_mem x hy)) hmem'
    · rw [if_neg hxl]
      rcases hx x (List.mem_cons_self x rest) with rfl | h
      · exact appendNew_all_mem (l ++ [x]) rest fun y hy => by
          rcases hx y (List.mem_cons_of_mem x hy) with rfl | h
          · simp
          · simp [h]
      · exact absurd h hxl

theorem parseSingleLines_branches_ext (ls : List (List String)) :
    ∀ acc s, parseSingleLines acc ls = Except.ok s →
      ∃ ext, s.branches = acc.branches ++ ext := by
  induction ls with
  | nil =>
    intro acc s h
    simp only [parseSingleLines] at h
    cases h
    exact ⟨[], by simp⟩
  | cons ws rest ih =>
    intro acc s h
    match ws with
    | [] =>
      simp only [parseSingleLines] at h
      exact ih acc s h
    | w :: args =>
      by_cases h1 : strStartsWith w "#" = true
      · simp only [parseSingleLines, if_pos h1] at h
        exact ih acc s h
      · by_cases h2 : strEndsWith w ":" = true
        · by_cases h3 : strContains (strDropRight w 1) '/' = true
          · simp only [parseSingleLines, if_neg h1, if_pos h2, if_pos h3] at h
            cases h
          · simp only [parseSingleLines, if_neg h1, if_pos h2, if_neg h3] at h
            obtain ⟨ext, hext⟩ := ih _ s h
            exact ⟨ext, hext⟩
        · simp only [parseSingleLines, if_neg h1, if_neg h2] at h
          by_cases h4 : w = "include"
          · rw [if_pos h4] at h
            obtain ⟨ext, hext⟩ := ih _ s h
            exact ⟨args ++ ext, by simp [hext]⟩
          · rw [if_neg h4] at h
            by_cases h5 : w = "feature"
            · rw [if_pos h5] at h
              obtain ⟨ext, hext⟩ := ih _ s h
              exact ⟨ext, hext⟩
            · rw [if_neg h5] at h
              exact ih _ s h

theorem parseSingle_branches (b : String) (ls : List (List String)) (s : SingleStruct)
    (h : parseSingle b ls = Except.ok s) : ∃ ext, s.branches = b :: ext := by
  obtain ⟨ext, hext⟩ := parseSingleLines_branches_ext ls (emptySingle b) s h
  exact ⟨ext, by simpa [emptySingle] using hext⟩

theorem singleBranchesOf_eq (files : Files) (b : String) (ls : List (List String))
    (s : SingleStruct) (hb : lookupA files b = some ls)
    (hs : parseSingle b ls = Except.ok s) :
    singleBranchesOf files b = s.branches := by
  simp [singleBranchesOf, hb, hs]

theorem parseChildren_spec (files : Files)
    (rec : String → PState → Option (Except String (ParseOut × PState)))
    (hrec : RecSpec files rec) :
    ∀ cs acc st acc' st', parseChildren rec cs acc st = some (Except.ok (acc', st')) →
      (∀ x ∈ st.got, x ∈ st'.got) ∧
      (∃ tnew, st'.trace = st.trace ++ tnew) ∧
      (∀ x ∈ st'.got, x ∈ st.got ∨ x ∈ st'.trace) ∧
      (∀ x ∈ acc.branches, x ∈ acc'.branches) ∧
      (TraceInv st →
        TraceInv st' ∧
        (∀ x ∈ st'.trace, x ∈ st.trace ∨ ((lookupA files x).isSome ∧ x ∉ st.got)) ∧
        (∀ x ∈ acc'.branches, x ∈ acc.branches ∨
          ∃ f, f ∈ st'.trace ∧ f ∉ st.trace ∧ x ∈ singleBranchesOf files f) ∧
        (∀ c ∈ cs, c ∈ st.got ∨ c ∈ acc'.branches) ∧
        (∀ x ∈ st'.trace, x ∉ st.trace → x ∈ acc'.branches)) := by
  intro cs
  induction cs with
  | nil =>
    intro acc st acc' st' h
    simp only [parseChildren, Option.some.injEq, Except.ok.injEq, Prod.mk.injEq] at h
    obtain ⟨rfl, rfl⟩ := h
    refine ⟨fun x hx => hx, ⟨[], by simp⟩, fun x hx => Or.inl hx, fun x hx => hx, ?_⟩
    intro hinv
    exact ⟨hinv, fun x hx => Or.inl hx, fun x hx => Or.inl hx,
      fun c hc => absurd hc (List.not_mem_nil c), fun x hx hnx => absurd hx hnx⟩
  | cons c cs ih =>
    intro acc st acc' st' h
    simp only [parseChildren] at h
    by_cases hc : c ∈ st.got
    · rw [if_pos hc] at h
      obtain ⟨g1, g2, g3, g4, g5⟩ := ih acc st acc' st' h
      refine ⟨g1, g2, g3, g4, ?_⟩
      intro hinv
      obtain ⟨p1, p2, p3, p4, p5⟩ := g5 hinv
      refine ⟨p1, p2, p3, ?_, p5⟩
      intro c' hc'
      rcases List.mem_cons.mp hc' with rfl | hcc
      · exact Or.inl hc
      · exact p4 c' hcc
    · rw [if_neg hc] at h
      cases hr : rec c st with
      | none => rw [hr] at h; cases h
      | some r =>
        rw [hr] at h
        cases r with
        | error e => simp at h
        | ok p =>
          obtain ⟨res, st2⟩ := p
          obtain ⟨r1, r2, r3, r4, r5, r6⟩ := hrec c st res st2 hr
          obtain ⟨g1, g2, g3, g4, g5⟩ := ih (mergeOut acc res) st2 acc' st' h
          obtain ⟨t1, ht1⟩ := r2
          obtain ⟨t2, ht2⟩ := g2
          have hsub12 : ∀ x ∈ st2.trace, x ∈ st'.trace := by
            intro x hx
            rw [ht2]
            exact List.mem_append_left _ hx
          have hsub01 : ∀ x ∈ st.trace, x ∈ st2.trace := by
            intro x hx
            rw [ht1]
            exact List.mem_append_left _ hx
          have hmono : ∀ x ∈ (mergeOut acc res).branches, x ∈ acc'.branches := g4
          have haccmerge : ∀ x ∈ acc.branches, x ∈ (mergeOut acc res).branches := by
            intro x hx
            exact (mem_appendNew acc.branches res.branches x).mpr (Or.inl hx)
          have hresmerge : ∀ x ∈ res.branches, x ∈ (mergeOut acc res).branches := by
            intro x hx
            exact (mem_appendNew acc.branches res.branches x).mpr (Or.inr hx)
          refine ⟨fun x hx => g1 x (r1 x hx),
            ⟨t1 ++ t2, by rw [ht2, ht1, List.append_assoc]⟩, ?_,
            fun x hx => g4 x (haccmerge x hx), ?_⟩
          · intro x hx
            rcases g3 x hx with hx2 | hxt
            · rcases r3 x hx2 with hx0 | hxt2
              · exact Or.inl hx0
              · exact Or.inr (hsub12 x hxt2)
            · exact Or.inr hxt
          · intro hinv
            obtain ⟨q1, q2, q3, q4⟩ := r6 hinv hc
            obtain ⟨p1, p2, p3, p4, p5⟩ := g5 q1
            refine ⟨p1, ?_, ?_, ?_, ?_⟩
            · intro x hx
              rcases p2 x hx with hx2 | ⟨hlk, hng⟩
              · exact q2 x hx2
              · exact Or.inr ⟨hlk, fun hmem => hng (r1 x hmem)⟩
            · intro x hx
              rcases p3 x hx with hxm | ⟨f, hf1, hf2, hf3⟩
              · rcases (mem_appendNew acc.branches res.branches x).mp hxm with hxa | hxr
                · exact Or.inl hxa
                · obtain ⟨f, hf1, hf2, hf3⟩ := q3 x hxr
                  exact Or.inr ⟨f, hsub12 f hf1, hf2, hf3⟩
              · refine Or.inr ⟨f, hf1, fun hmem => hf2 (hsub01 f hmem), hf3⟩
            · intro c' hc'
              rcases List.mem_cons.mp hc' with rfl | hcc
              · exact Or.inr (g4 c' (hresmerge c' r5))
              · rcases p4 c' hcc with hg2 | hacc
                · rcases r3 c' hg2 with hg0 | htr2
                  · exact Or.inl hg0
                  · by_cases htr0 : c' ∈ st.trace
                    · exact Or.inl (hinv.2 c' htr0)
                    · exact Or.inr (g4 c' (hresmerge c' (q4 c' htr2 htr0)))
                · exact Or.inr hacc
            · intro x hx hnx
              by_cases hx2 : x ∈ st2.trace
              · exact g4 x (hresmerge x (q4 x hx2 hnx))
              · exact p5 x hx hx2

theorem parseRec_spec (files : Files) :
    ∀ fuel, RecSpec files fun b st => parseRec files fuel b st := by
  intro fuel
  induction fuel with
  | zero =>
    intro b st out st' h
    simp [parseRec] at h
  | succ fuel ih =>
    intro b st out st' h
    simp only [parseRec] at h
    split at h
    · simp at h
    · rename_i ls hb
      split at h
      · simp at h
      · rename_i s hps
        split at h
        · simp at h
        · simp at h
        · rename_i acc st2 hch
          simp only [Option.some.injEq, Except.ok.injEq, Prod.mk.injEq] at h
          obtain ⟨h1, h2⟩ := h
          subst h1
          subst h2
          · obtain ⟨g1, g2, g3, g4, g5⟩ :=
              parseChildren_spec files _ ih s.branches emptyOut _ acc st2 hch
            obtain ⟨t2, ht2⟩ := g2
            obtain ⟨ext, hext⟩ := parseSingle_branches b ls s hps
            have hbmem : b ∈ s.branches := by rw [hext]; exact List.mem_cons_self b ext
            have hbtr1 : b ∈ st.trace ++ [b] := by simp
            have hbtr2 : b ∈ st2.trace := by
              rw [ht2]
              exact List.mem_append_left _ hbtr1
            have houtb : ∀ x ∈ appendNew acc.branches s.branches,
                x ∈ (appendNew acc.branches s.branches).reverse :=
              fun x hx => List.mem_reverse.mpr hx
            refine ⟨?_, ?_, ?_, ?_, ?_, ?_⟩
            · intro x hx
              exact g1 x (subset_insertNew st.got b x hx)
            · exact ⟨[b] ++ t2, by rw [ht2]; simp⟩
            · intro x hx
              rcases g3 x hx with hx1 | hxt
              · rcases (mem_insertNew st.got b x).mp hx1 with hx0 | rfl
                · exact Or.inl hx0
                · exact Or.inr hbtr2
              · exact Or.inr hxt
            · exact g1 b (self_mem_insertNew st.got b)
            · exact houtb b ((mem_appendNew acc.branches s.branches b).mpr (Or.inr hbmem))
            · intro hinv hbg
              have hbt : b ∉ st.trace := fun hmem => hbg (hinv.2 b hmem)
              have hinv1 :
                  TraceInv { st with got := insertNew st.got b, trace := st.trace ++ [b] } := by
                constructor
                · simp only [List.nodup_append, List.nodup_cons, List.not_mem_nil,
                    not_false_iff, List.nodup_nil, and_true, true_and]
                  constructor
                  · exact hinv.1
                  · intro a ha
                    simp only [List.mem_singleton]
                    intro rfl2
                    subst rfl2
                    exact hbt ha
                · intro x hx
                  rcases List.mem_append.mp hx with hx0 | hx1
                  · exact subset_insertNew st.got b x (hinv.2 x hx0)
                  · rw [List.mem_singleton.mp hx1]
                    exact self_mem_insertNew st.got b
              obtain ⟨p1, p2, p3, p4, p5⟩ := g5 hinv1
              refine ⟨p1, ?_, ?_, ?_⟩
              · intro x hx
                rcases p2 x hx with hx1 | ⟨hlk, hng⟩
                · rcases List.mem_append.mp hx1 with hx0 | hxb
                  · exact Or.inl hx0
                  · rw [List.mem_singleton.mp hxb]
                    exact Or.inr ⟨by rw [hb]; rfl, hbg⟩
                · exact Or.inr ⟨hlk, fun hmem => hng (subset_insertNew st.got b x hmem)⟩
              · intro x hx
                rcases (mem_appendNew acc.branches s.branches x).mp
                    (List.mem_reverse.mp hx) with hxa | hxs
                · rcases p3 x hxa with hempty | ⟨f, hf1, hf2, hf3⟩
                  · simp [emptyOut] at hempty
                  · refine ⟨f, hf1, ?_, hf3⟩
                    intro hmem
                    exact hf2 (List.mem_append_left _ hmem)
                · refine ⟨b, hbtr2, hbt, ?_⟩
                  rw [singleBranchesOf_eq files b ls s hb hps]
                  exact hxs
              · intro x hx hnx
                by_cases hx1 : x ∈ st.trace ++ [b]
                · rcases List.mem_append.mp hx1 with hx0 | hxb
                  · exact absurd hx0 hnx
                  · rw [List.mem_singleton.mp hxb]
                    exact houtb b ((mem_appendNew acc.branches s.branches b).mpr
                      (Or.inr hbmem))
                · exact houtb x ((mem_appendNew acc.branches s.branches x).mpr
                    (Or.inl (p5 x hx hx1)))

theorem insertNew_nodup (l : List String) (x : String) (h : l.Nodup) :
    (insertNew l x).Nodup := by
  by_cases hx : x ∈ l
  · simpa [insertNew, hx] using h
  · simp [insertNew, hx, List.nodup_append, h]

theorem appendNew_nodup (l xs : List String) (h : l.Nodup) : (appendNew l xs).Nodup := by
  induction xs generalizing l with
  | nil => exact h
  | cons x rest ih =>
    rw [appendNew_cons]
    by_cases hx : x ∈ l
    · rw [if_pos hx]
      exact ih l h
    · rw [if_neg hx]
      exact ih _ (by simp [List.nodup_append, h, hx])

theorem mem_mergeParents_fold (f : String → List String) :
    ∀ (ps acc : List String) (x : String),
      (x ∈ ps.foldl (fun a p => insertNew (appendNew a (f p)) p) acc ↔
        x ∈ acc ∨ ∃ p ∈ ps, x = p ∨ x ∈ f p) := by
  intro ps
  induction ps with
  | nil => simp
  | cons p rest ih =>
    intro acc x
    simp only [List.foldl_cons]
    rw [ih (insertNew (appendNew acc (f p)) p) x]
    constructor
    · rintro (hacc | ⟨q, hq, hxq⟩)
      · rcases (mem_insertNew _ p x).mp hacc with hap | rfl
        · rcases (mem_appendNew acc (f p) x).mp hap with hx | hx
          · exact Or.inl hx
          · exact Or.inr ⟨p, List.mem_cons_self p rest, Or.inr hx⟩
        · exact Or.inr ⟨x, List.mem_cons_self x rest, Or.inl rfl⟩
      · exact Or.inr ⟨q, List.mem_cons_of_mem p hq, hxq⟩
    · rintro (hx | ⟨q, hq, hxq⟩)
      · exact Or.inl ((mem_insertNew _ p x).mpr
          (Or.inl ((mem_appendNew acc (f p) x).mpr (Or.inl hx))))
      · rcases List.mem_cons.mp hq with rfl | hq'
        · rcases hxq with rfl | hxf
          · exact Or.inl ((mem_insertNew _ x x).mpr (Or.inr rfl))
          · exact Or.inl ((mem_insertNew _ q x).mpr
              (Or.inl ((mem_appendNew acc (f q) x).mpr (Or.inr hxf))))
        · exact Or.inr ⟨q, hq', hxq⟩

theorem mem_mergeParents (f : String → List String) (ps : List String) (x : String) :
    x ∈ mergeParents f ps ↔ ∃ p ∈ ps, x = p ∨ x ∈ f p := by
  rw [mergeParents, mem_mergeParents_fold]
  simp

theorem mergeParents_fold_nodup (f : String → List String) :
    ∀ (ps acc : List String), acc.Nodup →
      (ps.foldl (fun a p => insertNew (appendNew a (f p)) p) acc).Nodup := by
  intro ps
  induction ps with
  | nil => intro acc h; exact h
  | cons p rest ih =>
    intro acc h
    simp only [List.foldl_cons]
    exact ih _ (insertNew_nodup _ p (appendNew_nodup acc (f p) h))

theorem mergeParents_nodup (f : String → List String) (ps : List String) :
    (mergeParents f ps).Nodup :=
  mergeParents_fold_nodup f ps [] List.nodup_nil

theorem mergeParents_fold_congr (f g : String → List String) :
    ∀ (ps acc : List String), (∀ p ∈ ps, f p = g p) →
      ps.foldl (fun a p => insertNew (appendNew a (f p)) p) acc =
        ps.foldl (fun a p => insertNew (appendNew a (g p)) p) acc := by
  intro ps
  induction ps with
  | nil => intro acc _; rfl
  | cons p rest ih =>
    intro acc h
    simp only [List.foldl_cons]
    rw [h p (List.mem_cons_self p rest)]
    exact ih _ fun q hq => h q (List.mem_cons_of_mem p hq)

theorem mergeParents_congr (f g : String → List String) (ps : List String)
    (h : ∀ p ∈ ps, f p = g p) : mergeParents f ps = mergeParents g ps :=
  mergeParents_fold_congr f g ps [] h

theorem foldl_expandStep_preserve :
    ∀ (names : List String) (cur : List (String × List String)) (k : String),
      k ∉ names → lookupA (names.foldl expandStep cur) k = lookupA cur k := by
  intro names
  induction names with
  | nil => intro cur k _; rfl
  | cons n rest ih =>
    intro cur k hk
    simp only [List.foldl_cons]
    rw [ih _ k fun hm => hk (List.mem_cons_of_mem n hm)]
    exact lookupA_setA_other cur n k _ fun he => hk (he ▸ List.mem_cons_self n rest)

theorem anc_iff (inh : List (String × List String)) (n x : String) :
    Anc inh n x ↔ ∃ p ∈ lookupD inh n, x = p ∨ Anc inh p x := by
  constructor
  · intro h
    cases h with
    | parent hp => exact ⟨x, hp, Or.inl rfl⟩
    | step hp hq => exact ⟨_, hp, Or.inr hq⟩
  · rintro ⟨p, hp, rfl | h⟩
    · exact Anc.parent hp
    · exact Anc.step hp h

theorem checkPred_sound (inh : List (String × List String)) :
    ∀ (order seen : List String), checkPred inh seen order = true →
      ∀ l1 n l2, order = l1 ++ n :: l2 → ∀ p ∈ lookupD inh n, p ∈ seen ++ l1 := by
  intro order
  induction order with
  | nil =>
    intro seen _ l1 n l2 heq
    exfalso
    cases l1 <;> simp at heq
  | cons m rest ih =>
    intro seen hch l1 n l2 heq
    simp only [checkPred, Bool.and_eq_true, List.all_eq_true] at hch
    obtain ⟨hall, hrest⟩ := hch
    cases l1 with
    | nil =>
      rw [List.nil_append] at heq
      injection heq with h1 h2
      subst h1
      intro p hp
      have := hall p hp
      simpa using of_decide_eq_true this
    | cons a l1' =>
      rw [List.cons_append] at heq
      injection heq with h1 h2
      subst h1
      intro p hp
      have := ih (seen ++ [m]) hrest l1' n l2 h2 p hp
      simpa [List.append_assoc] using this

theorem expand_go_spec (inh : List (String × List String)) :
    ∀ (rest done : List String) (cur : List (String × List String)),
      (done ++ rest).Nodup →
      (∀ l1 n l2, done ++ rest = l1 ++ n :: l2 → ∀ p ∈ lookupD inh n, p ∈ l1) →
      (∀ n ∈ done, ∃ l, lookupA cur n = some l ∧ l.Nodup ∧
        (∀ x, x ∈ l ↔ Anc inh n x) ∧ l = mergeParents (lookupD cur) (lookupD inh n)) →
      (∀ m, m ∉ done → lookupA cur m = lookupA inh m) →
      ∀ n ∈ done ++ rest, ∃ l, lookupA (rest.foldl expandStep cur) n = some l ∧
        l.Nodup ∧ (∀ x, x ∈ l ↔ Anc inh n x) ∧
        l = mergeParents (lookupD (rest.foldl expandStep cur)) (lookupD inh n) := by
  intro rest
  induction rest with
  | nil =>
    intro done cur hnod hpred hdone hfresh n hn
    rw [List.append_nil] at hn
    simpa using hdone n hn
  | cons m rest' ih =>
    intro done cur hnod hpred hdone hfresh n hn
    simp only [List.foldl_cons]
    have hdisj : List.Disjoint done (m :: rest') := List.disjoint_of_nodup_append hnod
    have hmnotdone : m ∉ done := fun hm => hdisj hm (List.mem_cons_self m rest')
    have hparents : ∀ p ∈ lookupD inh m, p ∈ done :=
      fun p hp => hpred done m rest' rfl p hp
    have hlkm : lookupD cur m = lookupD inh m := by
      rw [lookupD, hfresh m hmnotdone, lookupD]
    have hstep : expandStep cur m = setA cur m (mergeParents (lookupD cur) (lookupD inh m)) := by
      rw [expandStep, hlkm]
    have hparents_ne : ∀ p ∈ lookupD inh m, p ≠ m :=
      fun p hp he => hmnotdone (he ▸ hparents p hp)
    have hlk_pres : ∀ p, p ≠ m → lookupD (expandStep cur m) p = lookupD cur p := by
      intro p hpm
      rw [lookupD, lookupD, hstep, lookupA_setA_other cur m p _ hpm]
    have hdone_parents : ∀ n' ∈ done, ∀ p ∈ lookupD inh n', p ∈ done := by
      intro n' hn' p hp
      obtain ⟨d1, d2, hsplit⟩ := List.append_of_mem hn'
      have hsplit2 : done ++ m :: rest' = d1 ++ n' :: (d2 ++ m :: rest') := by
        rw [hsplit]
        simp
      have := hpred d1 n' (d2 ++ m :: rest') hsplit2 p hp
      rw [hsplit]
      exact List.mem_append_left _ this
    have hdone' : ∀ n' ∈ done ++ [m], ∃ l, lookupA (expandStep cur m) n' = some l ∧
        l.Nodup ∧ (∀ x, x ∈ l ↔ Anc inh n' x) ∧
        l = mergeParents (lookupD (expandStep cur m)) (lookupD inh n') := by
      intro n' hn'
      rcases List.mem_append.mp hn' with hnd | hnm
      · obtain ⟨l, hl, hndp, hiff, heq⟩ := hdone n' hnd
        have hne : n' ≠ m := fun he => hmnotdone (he ▸ hnd)
        refine ⟨l, ?_, hndp, hiff, ?_⟩
        · rw [hstep, lookupA_setA_other cur m n' _ hne]
          exact hl
        · rw [heq]
          refine mergeParents_congr _ _ _ fun p hp => ?_
          have hpd : p ∈ done := hdone_parents n' hnd p hp
          have hpm : p ≠ m := fun he => hmnotdone (he ▸ hpd)
          exact (hlk_pres p hpm).symm
      · rw [List.mem_singleton.mp hnm]
        refine ⟨mergeParents (lookupD cur) (lookupD inh m), ?_, mergeParents_nodup _ _, ?_, ?_⟩
        · rw [hstep]
          exact lookupA_setA_same cur m _
        · intro x
          rw [mem_mergeParents]
          rw [anc_iff inh m x]
          constructor
          · rintro ⟨p, hp, rfl | hx⟩
            · exact ⟨x, hp, Or.inl rfl⟩
            · obtain ⟨lp, hlp, _, hiffp, _⟩ := hdone p (hparents p hp)
              rw [lookupD, hlp] at hx
              exact ⟨p, hp, Or.inr ((hiffp x).mp hx)⟩
          · rintro ⟨p, hp, rfl | hx⟩
            · exact ⟨x, hp, Or.inl rfl⟩
            · obtain ⟨lp, hlp, _, hiffp, _⟩ := hdone p (hparents p hp)
              refine ⟨p, hp, Or.inr ?_⟩
              rw [lookupD, hlp]
              exact (hiffp x).mpr hx
        · refine mergeParents_congr _ _ _ fun p hp => ?_
          exact (hlk_pres p (hparents_ne p hp)).symm
    have hfresh' : ∀ k, k ∉ done ++ [m] → lookupA (expandStep cur m) k = lookupA inh k := by
      intro k hk
      have hkm : k ≠ m := fun he => hk (List.mem_append_right _ (he ▸ List.mem_singleton_self m))
      have hkd : k ∉ done := fun hd => hk (List.mem_append_left _ hd)
      rw [hstep, lookupA_setA_other cur m k _ hkm]
      exact hfresh k hkd
    have hassoc : (done ++ [m]) ++ rest' = done ++ m :: rest' := by simp
    have hnod' : ((done ++ [m]) ++ rest').Nodup := by
      rw [hassoc]
      exact hnod
    have hpred' : ∀ l1 n0 l2, (done ++ [m]) ++ rest' = l1 ++ n0 :: l2 →
        ∀ p ∈ lookupD inh n0, p ∈ l1 := by
      intro l1 n0 l2 heq
      rw [hassoc] at heq
      exact hpred l1 n0 l2 heq
    have hn' : n ∈ (done ++ [m]) ++ rest' := by
      rw [hassoc]
      exact hn
    exact ih (done ++ [m]) (expandStep cur m) hnod' hpred' hdone' hfresh' n hn'

theorem fetchSeedsGo_lookup_not_mem (sf : SeedFiles) (bases branches : List String) :
    ∀ (names : List String) (acc seeds : List (String × String)),
      fetchSeedsGo sf bases branches acc names = Except.ok seeds →
      ∀ k, k ∉ names → lookupA seeds k = lookupA acc k := by
  intro names
  induction names with
  | nil =>
    intro acc seeds h k _
    simp only [fetchSeedsGo, Except.ok.injEq] at h
    rw [← h]
  | cons n rest ih =>
    intro acc seeds h k hk
    simp only [fetchSeedsGo] at h
    cases ho : openSeedText sf bases branches n with
    | none =>
      rw [ho] at h
      simp at h
    | some t =>
      rw [ho] at h
      have hkr : k ∉ rest := fun hm => hk (List.mem_cons_of_mem n hm)
      have hkn : k ≠ n := fun he => hk (he ▸ List.mem_cons_self n rest)
      rw [ih _ seeds h k hkr, lookupA_setA_other acc n k t hkn]

theorem fetchSeedsGo_lookup_mem (sf : SeedFiles) (bases branches : List String) :
    ∀ (names : List String) (acc seeds : List (String × String)),
      fetchSeedsGo sf bases branches acc names = Except.ok seeds →
      ∀ k ∈ names, ∃ t, openSeedText sf bases branches k = some t ∧
        lookupA seeds k = some t := by
  intro names
  induction names with
  | nil =>
    intro acc seeds _ k hk
    exact absurd hk (List.not_mem_nil k)
  | cons n rest ih =>
    intro acc seeds h k hk
    simp only [fetchSeedsGo] at h
    cases ho : openSeedText sf bases branches n with
    | none =>
      rw [ho] at h
      simp at h
    | some t =>
      rw [ho] at h
      by_cases hkr : k ∈ rest
      · exact ih _ seeds h k hkr
      · rcases List.mem_cons.mp hk with rfl | hm
        · refine ⟨t, ho, ?_⟩
          rw [fetchSeedsGo_lookup_not_mem sf bases branches rest _ seeds h k hkr]
          exact lookupA_setA_same acc k t
        · exact absurd hm hkr

theorem findSome?_cons_some {α β : Type} (f : α → Option β) (x : α) (l : List α)
    (t : β) (h : f x = some t) : (x :: l).findSome? f = some t := by
  simp [List.findSome?_cons, h]

theorem findSome?_first_hit {α : Type} (f : String → Option α) :
    ∀ (l : List String) (S : String) (t : α), S ∈ l → f S = some t →
      (∀ br, br ≠ S → f br = none) → l.findSome? f = some t := by
  intro l
  induction l with
  | nil =>
    intro S t hS
    exact absurd hS (List.not_mem_nil S)
  | cons x xs ih =>
    intro S t hS hfS hothers
    by_cases hx : x = S
    · subst hx
      exact findSome?_cons_some f x xs t hfS
    · rw [List.findSome?_cons, hothers x hx]
      have hS' : S ∈ xs := by
        rcases List.mem_cons.mp hS with h0 | h0
        · exact absurd h0.symm hx
        · exact h0
      exact ih S t hS' hfS hothers

theorem openSeedText_single_base (sf : SeedFiles) (base : String)
    (branches : List String) (name : String) :
    openSeedText sf [base] branches name =
      branches.findSome? fun br => sf base br name := by
  simp [openSeedText, List.findSome?_cons, List.findSome?]
  cases h : branches.findSome? fun br => sf base br name <;> simp [h]

theorem parseChildren_not_none (files : Files) (fuel : Nat)
    (hN : ∀ b st, b ∉ st.got → freeKeys files st.got < fuel →
      parseRec files fuel b st ≠ none) :
    ∀ cs acc st, freeKeys files st.got < fuel →
      parseChildren (fun c st2 => parseRec files fuel c st2) cs acc st ≠ none := by
  intro cs
  induction cs with
  | nil =>
    intro acc st _ h
    simp [parseChildren] at h
  | cons c cs ih =>
    intro acc st hfree h
    simp only [parseChildren] at h
    by_cases hc : c ∈ st.got
    · rw [if_pos hc] at h
      exact ih acc st hfree h
    · rw [if_neg hc] at h
      cases hr : parseRec files fuel c st with
      | none => exact hN c st hc hfree hr
      | some r =>
        rw [hr] at h
        cases r with
        | error e => simp at h
        | ok p =>
          obtain ⟨res, st2⟩ := p
          have hsub := (parseRec_spec files fuel c st res st2 hr).1
          have hfree2 : freeKeys files st2.got < fuel :=
            Nat.lt_of_le_of_lt (freeKeys_mono files st.got st2.got hsub) hfree
          exact ih _ st2 hfree2 h

theorem parseRec_not_none (files : Files) :
    ∀ fuel b st, b ∉ st.got → freeKeys files st.got < fuel →
      parseRec files fuel b st ≠ none := by
  intro fuel
  induction fuel with
  | zero =>
    intro b st _ hfree
    exact absurd hfree (Nat.not_lt_zero _)
  | succ fuel ih =>
    intro b st hb hfree h
    simp only [parseRec] at h
    split at h
    · simp at h
    · rename_i ls hb2
      split at h
      · simp at h
      · rename_i s hps
        split at h
        · rename_i hch
          have hfree1 : freeKeys files (insertNew st.got b) < fuel := by
            have hle : freeKeys files st.got ≤ fuel := Nat.lt_succ_iff.mp hfree
            have hlt := freeKeys_insertNew_lt files st.got b
              (lookupA_mem_keys files b ls hb2) hb
            omega
          exact parseChildren_not_none files fuel ih s.branches emptyOut _ hfree1 hch
        · simp at h
        · simp at h

theorem topParse_root_first (files : Files) (T : String) (out : ParseOut) (st' : PState)
    (h : parseRec files (parseFuel files) T initPState = some (Except.ok (out, st')))
    (hnoback : ∀ f ∈ st'.trace, f ≠ T → T ∉ singleBranchesOf files f) :
    ∃ rest, out.branches = T :: rest ∧ T ∉ rest ∧
      ∀ c ∈ singleBranchesOf files T, c ∈ out.branches := by
  rw [show parseFuel files = numKeys files + 1 from rfl] at h
  simp only [parseRec] at h
  split at h
  · simp at h
  · rename_i ls hb
    split at h
    · simp at h
    · rename_i s hps
      split at h
      · simp at h
      · simp at h
      · rename_i acc st2 hch
        simp only [Option.some.injEq, Except.ok.injEq, Prod.mk.injEq] at h
        obtain ⟨h1, h2⟩ := h
        subst h1
        subst h2
        obtain ⟨g1, g2, g3, g4, g5⟩ := parseChildren_spec files _
          (parseRec_spec files (numKeys files)) s.branches emptyOut _ acc st2 hch
        have hinv1 :
            TraceInv { initPState with got := insertNew initPState.got T, trace := initPState.trace ++ [T] } := by
          constructor
          · simp [initPState]
          · intro x hx
            simp only [initPState, List.nil_append, List.mem_singleton] at hx
            rw [hx]
            exact self_mem_insertNew [] T
        obtain ⟨p1, p2, p3, p4, p5⟩ := g5 hinv1
        have hTnot : T ∉ acc.branches := by
          intro hT
          rcases p3 T hT with hempty | ⟨f, hf1, hf2, hf3⟩
          · simp [emptyOut] at hempty
          · have hfT : f ≠ T := by
              intro hfeq
              apply hf2
              rw [hfeq]
              simp [initPState]
            exact hnoback f hf1 hfT hf3
        have hIncl : ∀ c ∈ s.branches, c = T ∨ c ∈ acc.branches := by
          intro c hc
          rcases p4 c hc with hgot | hacc
          · left
            have hmem : c ∈ insertNew ([] : List String) T := hgot
            rcases (mem_insertNew [] T c).mp hmem with h0 | h0
            · exact absurd h0 (List.not_mem_nil c)
            · exact h0
          · right
            exact hacc
        obtain ⟨ext, hext⟩ := parseSingle_branches T ls s hps
        have hTmem : T ∈ s.branches := by
          rw [hext]
          exact List.mem_cons_self T ext
        have happ : appendNew acc.branches s.branches = acc.branches ++ [T] :=
          appendNew_exactly_one acc.branches s.branches T hIncl hTnot hTmem
        refine ⟨acc.branches.reverse, ?_, ?_, ?_⟩
        · show (appendNew acc.branches s.branches).reverse = T :: acc.branches.reverse
          rw [happ]
          simp
        · intro hT
          exact hTnot (List.mem_reverse.mp hT)
        · intro c hc
          rw [singleBranchesOf_eq files T ls s hb hps] at hc
          show c ∈ (appendNew acc.branches s.branches).reverse
          exact List.mem_reverse.mpr ((mem_appendNew _ _ c).mpr (Or.inr hc))

/-! ## Theorems for the claims -/

/-- C7: For every log record, `GerminateFormatter.format` returns the bare
message when the record carries a true `progress` attribute, and otherwise
returns the message prefixed by its severity marker (two spaces for DEBUG,
"* " for INFO, "! " for WARNING, "? " for ERROR); records at any other
level are returned without a prefix. -/
theorem formatter_severity_markers (r : LogRecord) :
    formatRecord r =
      if r.progress = some true then r.message
      else if r.levelno = DEBUG then "  " ++ r.message
      else if r.levelno = INFO then "* " ++ r.message
      else if r.levelno = WARNING then "! " ++ r.message
      else if r.levelno = ERROR then "? " ++ r.message
      else r.message := by
  obtain ⟨p, lvl, msg⟩ := r
  simp only [formatRecord, lookupLevel_formatter]
  by_cases hp : p = some true
  · simp [hp]
  · rw [if_neg hp, if_neg hp]
    by_cases h1 : lvl = DEBUG
    · simp [h1, DEBUG, INFO, WARNING, ERROR]
    · by_cases h2 : lvl = INFO
      · simp [h1, h2, DEBUG, INFO, WARNING, ERROR]
      · by_cases h3 : lvl = WARNING
        · simp [h1, h2, h3, DEBUG, INFO, WARNING, ERROR]
        · by_cases h4 : lvl = ERROR
          · simp [h1, h2, h3, h4, DEBUG, INFO, WARNING, ERROR]
          · simp [h1, h2, h3, h4]

/-- C9: Every `Seed` comparison operator is determined solely by the
`text` attribute: `==` tests text equality, the order operators compare
texts, and replacing `name`, `base` and `branch` by anything else leaves
every comparison unchanged. -/
theorem seed_comparisons_only_text (a b : SeedObj) (n1 n2 : String)
    (u1 u2 v1 v2 : Option String) :
    (seedEqOp a b = (a.text == b.text)) ∧
    (seedNe a b = (a.text != b.text)) ∧
    (seedLt a b = decide (a.text < b.text)) ∧
    (seedLe a b = decide (a.text ≤ b.text)) ∧
    (seedGt a b = decide (b.text < a.text)) ∧
    (seedGe a b = decide (b.text ≤ a.text)) ∧
    (seedEqOp { a with name := n1, base := u1, branch := v1 }
      { b with name := n2, base := u2, branch := v2 } = seedEqOp a b) ∧
    (seedNe { a with name := n1, base := u1, branch := v1 }
      { b with name := n2, base := u2, branch := v2 } = seedNe a b) ∧
    (seedLt { a with name := n1, base := u1, branch := v1 }
      { b with name := n2, base := u2, branch := v2 } = seedLt a b) ∧
    (seedLe { a with name := n1, base := u1, branch := v1 }
      { b with name := n2, base := u2, branch := v2 } = seedLe a b) ∧
    (seedGt { a with name := n1, base := u1, branch := v1 }
      { b with name := n2, base := u2, branch := v2 } = seedGt a b) ∧
    (seedGe { a with name := n1, base := u1, branch := v1 }
      { b with name := n2, base := u2, branch := v2 } = seedGe a b) := by
  refine ⟨rfl, rfl, rfl, rfl, rfl, rfl, rfl, rfl, rfl, rfl, rfl, rfl⟩

/-- C8: If the body of `with AtomicFile(filename)` raises, the file at
`filename` is unchanged; if it completes normally, `filename` contains
exactly the text written inside the context and `filename.new` no longer
exists. -/
theorem atomic_file_spec (fs : Fs) (filename written : String) :
    (withAtomicFile fs filename written true filename = fs filename) ∧
    (withAtomicFile fs filename written false filename = some written) ∧
    (withAtomicFile fs filename written false (filename ++ ".new") = none) := by
  have hne := filename_ne_tmp filename
  refine ⟨?_, ?_, ?_⟩
  · simp [withAtomicFile, fsSet, hne]
  · simp [withAtomicFile, fsSet, hne]
  · simp [withAtomicFile, fsSet]

/-- C3: For every requested index file and every mirror, the archive
adapter attempts `.xz`, `.bz2`, `.gz`, then the uncompressed file, in
that order, and uses the first attempt that succeeds; once an attempt
succeeds no later suffix is tried for that mirror. -/
theorem compression_fallback {α : Type} (tryOpen : String → String → Option α)
    (mirrors : List String) (m : String) :
    ((openTagFiles tryOpen mirrors).1 =
      mirrors.map fun mm => (mm, tryTagFileSuffixes (tryOpen mm))) ∧
    tryTagFileSuffixes (tryOpen m) =
      (if (tryOpen m ".xz").isSome then ([".xz"], tryOpen m ".xz")
       else if (tryOpen m ".bz2").isSome then ([".xz", ".bz2"], tryOpen m ".bz2")
       else if (tryOpen m ".gz").isSome then ([".xz", ".bz2", ".gz"], tryOpen m ".gz")
       else ([".xz", ".bz2", ".gz", ""], tryOpen m "")) := by
  constructor
  · rfl
  · rcases h1 : tryOpen m ".xz" with _ | f1 <;>
      rcases h2 : tryOpen m ".bz2" with _ | f2 <;>
        rcases h3 : tryOpen m ".gz" with _ | f3 <;>
          rcases h4 : tryOpen m "" with _ | f4 <;>
            simp [tryTagFileSuffixes, suffixOrder, tryOpenLoop, h1, h2, h3, h4]

/-- C4: In `TagFile.sections`, for each (dist, component) pair, a missing
InstallerPackages index is non-fatal: the progress message is logged, no
InstallerPackages stanza is yielded for the pair, and iteration continues
with the remaining pairs.  A missing Packages index aborts the iteration
before the pair yields anything; a missing Sources index aborts it after
the pair's Packages stanzas. -/
theorem sections_error_policy {σ : Type} (cfg : TagFileCfg σ) (dist component : String)
    (rest : List (String × String)) :
    (∀ pf sf e,
      (openTagFiles (cfg.tryOpen dist component IndexType.packages) cfg.mirrors).2 =
          Except.ok pf →
      (openTagFiles (cfg.tryOpen dist component IndexType.sources) cfg.sourceMirrors).2 =
          Except.ok sf →
      (openTagFiles (cfg.tryOpen dist component IndexType.installerPackages)
          cfg.mirrors).2 = Except.error e →
      cfg.installerPackages = true →
      runPairs cfg ((dist, component) :: rest) =
        (tagSections IndexType.packages pf ++ tagSections IndexType.sources sf ++
            (runPairs cfg rest).1,
          missingInstallerMsg component :: (runPairs cfg rest).2.1,
          (runPairs cfg rest).2.2) ∧
      IndexType.installerPackages ∉
        (tagSections IndexType.packages pf ++ tagSections IndexType.sources sf).map
          Prod.fst) ∧
    (∀ e,
      (openTagFiles (cfg.tryOpen dist component IndexType.packages) cfg.mirrors).2 =
          Except.error e →
      runPairs cfg ((dist, component) :: rest) = ([], [], true)) ∧
    (∀ pf e,
      (openTagFiles (cfg.tryOpen dist component IndexType.packages) cfg.mirrors).2 =
          Except.ok pf →
      (openTagFiles (cfg.tryOpen dist component IndexType.sources) cfg.sourceMirrors).2 =
          Except.error e →
      runPairs cfg ((dist, component) :: rest) =
        (tagSections IndexType.packages pf, [], true)) := by
  refine ⟨?_, ?_, ?_⟩
  · intro pf sf e hp hs hi hflag
    constructor
    · simp [runPairs, hp, hs, hi, hflag]
    · intro hmem
      rw [List.map_append] at hmem
      rcases List.mem_append.mp hmem with h | h
      · exact absurd (mem_map_fst_tagSections h) (by decide)
      · exact absurd (mem_map_fst_tagSections h) (by decide)
  · intro e hp
    simp [runPairs, hp]
  · intro pf e hp hs
    simp [runPairs, hp, hs]

/-- C4 witness: a concrete run where only the installer index is missing:
the pair's Packages and Sources stanzas are yielded, the missing-installer
message is logged and the run is not aborted. -/
theorem sections_error_policy_witness :
    runPairs cfgNoInstaller [("d", "c")] =
      ([(IndexType.packages, 7), (IndexType.sources, 8)],
        [missingInstallerMsg "c"], false) := by
  have h := ((sections_error_policy cfgNoInstaller "d" "c" []).1 [[7]] [[8]] "IOError"
    (by rfl) (by rfl) (by rfl) rfl).1
  rw [h]
  rfl

/-- C2: For a seed structure with acyclic inheritance (expressed by the
spec-modelled `topo_sort` contract: a duplicate-free processing order in
which every declared parent precedes its child), after
`_expand_inheritance` runs, each seed's parent list contains exactly the
transitive closure of its declared parents (no name twice), ordered as
the source's loop orders it: for each declared parent P in declaration
order, first P's own expanded ancestor list (skipping names already
seen), then P itself. -/
theorem expand_inheritance_spec (inh : List (String × List String)) (order : List String)
    (hnod : order.Nodup)
    (hpred : ∀ l1 n l2, order = l1 ++ n :: l2 → ∀ p ∈ lookupD inh n, p ∈ l1) :
    ∀ n ∈ order, ∃ l, lookupA (expandInheritance order inh) n = some l ∧
      l.Nodup ∧
      (∀ x, x ∈ l ↔ Anc inh n x) ∧
      l = mergeParents (lookupD (expandInheritance order inh)) (lookupD inh n) := by
  intro n hn
  have h := expand_go_spec inh order [] inh (by simpa using hnod) (by simpa using hpred)
    (fun n' hn' => absurd hn' (List.not_mem_nil n')) (fun m _ => rfl) n (by simpa using hn)
  simpa [expandInheritance] using h

/-- C2 witness: on the chain base ← desktop ← ship, the expanded parent
list of `ship` is exactly `["base", "desktop"]`, and `base` is a
transitive ancestor of `ship`. -/
theorem expand_inheritance_spec_witness :
    lookupA (expandInheritance orderDemo inhDemo) "ship" = some ["base", "desktop"] ∧
    Anc inhDemo "ship" "base" := by
  have hpred : ∀ l1 n l2, orderDemo = l1 ++ n :: l2 → ∀ p ∈ lookupD inhDemo n, p ∈ l1 := by
    intro l1 n l2 heq p hp
    have hck : checkPred inhDemo [] orderDemo = true := by decide
    simpa using checkPred_sound inhDemo orderDemo [] hck l1 n l2 heq p hp
  obtain ⟨l, hl, _, hiff, _⟩ :=
    expand_inheritance_spec inhDemo orderDemo (by decide) hpred "ship" (by decide)
  have hleq : l = ["base", "desktop"] := by
    have hconc : lookupA (expandInheritance orderDemo inhDemo) "ship" =
        some ["base", "desktop"] := by decide
    rw [hl] at hconc
    exact Option.some_inj.mp hconc
  constructor
  · rw [hl, hleq]
  · refine (hiff "base").mp ?_
    rw [hleq]
    decide

/-- C6: The germinate command-line driver exits with status 0 on
success, 1 on a seed or archive error (SeedError is turned into
`sys.exit(1)`, the IOError from a missing index propagates and the
interpreter exits with 1), and 2 on a configuration error (optparse's
`parser.error`); a blacklist SeedError is caught and does not change the
exit status. -/
theorem germinate_exit_codes (env : MainEnv) (bl : Bool) :
    (germinateMainExit env =
      if env.optionsValid = false then 2
      else if env.archiveOk = false ∨ env.structureOk = false then 1
      else 0) ∧
    germinateMainExit { env with blacklistOk := bl } = germinateMainExit env := by
  obtain ⟨o, a, s, b⟩ := env
  cases o <;> cases a <;> cases s <;>
    simp [germinateMainExit, mainRun, processExit]

/-- C1 counterexample: with mutually-including branches `t` and `s`,
both defining seed `n`, the structure built for `t` maps `n` to the text
found in `s`, not the text found in `t`: the override law fails as
stated when the included branch includes the including branch back. -/
theorem include_override_cyclic_cex :
    "s" ∈ singleBranchesOf cycFiles "t" ∧
    cycSeeds "b" "t" "n" = some "n from t" ∧
    cycSeeds "b" "s" "n" = some "n from s" ∧
    Except.map (fun r => lookupA r.2 "n") (buildSeeds cycFiles cycSeeds ["b"] "t") =
      Except.ok (some "n from s") ∧
    ("n from s" : String) ≠ "n from t" := by
  refine ⟨by decide, rfl, rfl, by rfl, by decide⟩

/-- C1 (amended): For every branch `T` whose STRUCTURE has an
`include S` line, provided no branch whose STRUCTURE is fetched during
the parse includes `T` back (no include cycle through `T`), the
SeedStructure built for `T` maps every seed name `N` declared in the
structure and defined in `T` to the seed text found in `T` (the
including branch), and maps a seed defined only in `S` to the text found
in `S`.  The fetched branches are the trace `st'.trace` of the
underlying `_parse` run. -/
theorem include_override_acyclic (files : Files) (sf : SeedFiles)
    (base T S N M tT tS : String) (out : ParseOut) (st' : PState)
    (seeds : List (String × String))
    (hbuild : buildSeeds files sf [base] T = Except.ok (out, seeds))
    (hparse : parseRec files (parseFuel files) T initPState =
      some (Except.ok (out, st')))
    (hnoback : ∀ f ∈ st'.trace, f ≠ T → T ∉ singleBranchesOf files f)
    (hS : S ∈ singleBranchesOf files T)
    (hN : N ∈ out.seedOrder) (hNT : sf base T N = some tT)
    (hM : M ∈ out.seedOrder) (hMS : sf base S M = some tS)
    (hMonly : ∀ br, br ≠ S → sf base br M = none) :
    lookupA seeds N = some tT ∧ lookupA seeds M = some tS := by
  simp only [buildSeeds, hparse] at hbuild
  split at hbuild
  · simp at hbuild
  · rename_i seeds0 hfetch
    simp only [Except.ok.injEq, Prod.mk.injEq] at hbuild
    obtain ⟨-, rfl⟩ := hbuild
    obtain ⟨rest, hbr, hTrest, hincl⟩ := topParse_root_first files T out st' hparse hnoback
    constructor
    · obtain ⟨t, hopen, hlook⟩ :=
        fetchSeedsGo_lookup_mem sf [base] out.branches out.seedOrder [] _ hfetch N hN
      have hval : (out.branches.findSome? fun br => sf base br N) = some tT := by
        rw [hbr]
        exact findSome?_cons_some _ T rest tT hNT
      rw [openSeedText_single_base] at hopen
      rw [hopen] at hval
      rw [hlook, Option.some_inj.mp hval]
    · obtain ⟨t, hopen, hlook⟩ :=
        fetchSeedsGo_lookup_mem sf [base] out.branches out.seedOrder [] _ hfetch M hM
      have hval : (out.branches.findSome? fun br => sf base br M) = some tS :=
        findSome?_first_hit _ out.branches S tS (hincl S hS) hMS hMonly
      rw [openSeedText_single_base] at hopen
      rw [hopen] at hval
      rw [hlook, Option.some_inj.mp hval]

/-- C1 witness: on the repository's own acyclic fixture (`two` includes
`one`, both define `desktop`, only `one` defines `base`), `desktop` is
taken from `two` and `base` from `one`. -/
theorem include_override_acyclic_witness :
    lookupA [("base", "b1"), ("desktop", "d2")] "desktop" = some "d2" ∧
    lookupA [("base", "b1"), ("desktop", "d2")] "base" = some "b1" := by
  have hMonly : ∀ br, br ≠ "one" → twoSeeds "b" br "base" = none := by
    intro br hbr
    by_cases h2 : br = "two"
    · rw [h2]
      rfl
    · simp [twoSeeds, hbr, h2]
  exact include_override_acyclic twoFiles twoSeeds "b" "two" "one" "desktop" "base"
    "d2" "b1"
    { seedOrder := ["base", "desktop", "desktop"], inherit := [("base", []), ("desktop", [])], branches := ["two", "one"], lines := [["base:"], ["desktop:"]] }
    { got := ["two", "one"], trace := ["two", "one"], feats := [] }
    [("base", "b1"), ("desktop", "d2")]
    (by rfl) (by rfl) (by decide) (by decide) (by decide) rfl (by decide) rfl hMonly

/-- C10: `SeedStructure._parse` terminates on every seed collection,
cyclic include graphs included: with fuel `parseFuel files` (one more
than the number of distinct structure files) the recursion never runs
out of fuel, and on success the trace of fetched branches has no
duplicates — each branch's STRUCTURE is fetched and parsed at most once,
because a branch is added to `got_branches` before its includes are
followed and branches already in `got_branches` are skipped. -/
theorem parse_terminates_fetch_once (files : Files) (branch : String) :
    parseRec files (parseFuel files) branch initPState ≠ none ∧
    ∀ out st', parseRec files (parseFuel files) branch initPState =
        some (Except.ok (out, st')) → st'.trace.Nodup := by
  constructor
  · apply parseRec_not_none
    · simp [initPState]
    · rw [show initPState.got = [] from rfl, freeKeys_nil, parseFuel]
      omega
  · intro out st' h
    have hspec := (parseRec_spec files (parseFuel files) branch initPState out st' h).2.2.2.2.2
    have hinv : TraceInv initPState := ⟨List.nodup_nil, by simp [initPState]⟩
    exact (hspec hinv (by simp [initPState])).1.1

/-- C10 witness: on the cyclic two-branch collection the parse completes
and fetches each of `t` and `s` exactly once. -/
theorem parse_terminates_fetch_once_witness :
    parseRec cycFiles (parseFuel cycFiles) "t" initPState ≠ none ∧
    (["t", "s"] : List String).Nodup := by
  refine ⟨(parse_terminates_fetch_once cycFiles "t").1, ?_⟩
  exact (parse_terminates_fetch_once cycFiles "t").2
    { seedOrder := ["n", "n"], inherit := [("n", [])], branches := ["s", "t"],
      lines := [["n:"]] }
    { got := ["t", "s"], trace := ["t", "s"], feats := [] } (by rfl)

/-- C5: Parsing a STRUCTURE file raises SeedError exactly when some
seed-defining line (a non-blank, non-comment line whose first word ends
in a colon) declares a seed name containing a slash; otherwise no
SeedError is raised by `SingleSeedStructure.__init__`. -/
theorem structure_slash_error (branch : String) (ls : List (List String)) :
    (∃ e, parseSingle branch ls = Except.error e) ↔
      ∃ ws ∈ ls, seedLineBad ws = true :=
  parseSingleLines_error_iff (emptySingle branch) ls

/-- C5 witness: a structure with a slashed seed name errors; the same
structure with the slash only in an include argument does not. -/
theorem structure_slash_error_witness :
    (∃ e, parseSingle "b" [["good:", "base"], ["bad/name:"]] = Except.error e) ∧
    ¬(∃ e, parseSingle "b" [["good:", "base"], ["include", "x/y"]] = Except.error e) := by
  constructor
  · rw [structure_slash_error]
    decide
  · rw [structure_slash_error]
    decide

end Germinate
